import Mathlib

/-!
Shallow embedding of the review-target extraction core of the `rv` repository
(`src/git_helpers.rs`, `src/review.rs`, `src/config.rs`).

Modelling choices:
* File paths (`PathBuf`) are modelled as `String`, ordered bytewise; for the
  relative single-component and slash-separated paths the diff stream yields,
  this agrees with the orderings used in the claims.
* Commit identifiers (`git2::Oid`) are modelled as `Nat`.
* The raw byte content of a diff line (`line.content()`, a `&[u8]`) is a
  `List Nat` of byte values; `std::str::from_utf8` is embedded as an
  executable UTF-8 decoder (`utf8DecodeAux`) following RFC 3629, the encoding
  accepted by Rust.
* Rust panics (`unwrap`, `panic!`, out-of-bounds indexing) are modelled
  explicitly: functions that can panic return `Option` (`none` = panic) or an
  outcome type with a dedicated `panicked` constructor.
* The effectful diff stream produced by the `Diff::print` callback of `git2` is
  modelled as a `List DiffLine` consumed by a fold, which is exactly how the
  Rust closure threads its captured mutable state.
-/

namespace Rv

abbrev PathT := String

abbrev Oid := Nat

/-- Continuation byte test for UTF-8 (0x80..=0xBF). -/
def isCont (b : Nat) : Bool := 0x80 ≤ b && b ≤ 0xBF

/-- Embedding of Rust `std::str::from_utf8` (RFC 3629 UTF-8 decoding) over a
byte list: `some` of the decoded characters when the bytes are valid UTF-8,
`none` otherwise. -/
def utf8DecodeAux : List Nat → Option (List Char)
  | [] => some []
  | b1 :: rest =>
    if b1 ≤ 0x7F then
      (utf8DecodeAux rest).map (fun cs => Char.ofNat b1 :: cs)
    else if 0xC2 ≤ b1 && b1 ≤ 0xDF then
      match rest with
      | b2 :: rest2 =>
        if isCont b2 then
          (utf8DecodeAux rest2).map
            (fun cs => Char.ofNat (((b1 - 0xC0) <<< 6) + (b2 - 0x80)) :: cs)
        else none
      | [] => none
    else if 0xE0 ≤ b1 && b1 ≤ 0xEF then
      match rest with
      | b2 :: b3 :: rest3 =>
        if ((if b1 = 0xE0 then 0xA0 else 0x80) ≤ b2 &&
            b2 ≤ (if b1 = 0xED then 0x9F else 0xBF)) && isCont b3 then
          (utf8DecodeAux rest3).map
            (fun cs =>
              Char.ofNat ((((b1 - 0xE0) <<< 12) + ((b2 - 0x80) <<< 6)) + (b3 - 0x80)) :: cs)
        else none
      | _ => none
    else if 0xF0 ≤ b1 && b1 ≤ 0xF4 then
      match rest with
      | b2 :: b3 :: b4 :: rest4 =>
        if (((if b1 = 0xF0 then 0x90 else 0x80) ≤ b2 &&
             b2 ≤ (if b1 = 0xF4 then 0x8F else 0xBF)) && isCont b3) && isCont b4 then
          (utf8DecodeAux rest4).map
            (fun cs =>
              Char.ofNat
                (((((b1 - 0xF0) <<< 18) + ((b2 - 0x80) <<< 12)) + ((b3 - 0x80) <<< 6)) +
                  (b4 - 0x80)) :: cs)
        else none
      | _ => none
    else none

/-- The text appended to the current patch for one diff line: the decoded
content when valid UTF-8, otherwise the deterministic placeholder
`format!("<non-utf8 {} bytes>", content.len())` from
`git_helpers.rs` lines 134-137 and 208-211. -/
def lineText (content : List Nat) : String :=
  match utf8DecodeAux content with
  | some cs => String.mk cs
  | none => "<non-utf8 " ++ toString content.length ++ " bytes>"

/-- One line of the raw diff stream delivered to the `diff.print` callback:
the per-delta path (`delta.new_file().path().or(delta.old_file().path())`,
which may be absent) and the raw byte content of the line. -/
structure DiffLine where
  path : Option PathT
  content : List Nat
deriving DecidableEq, Repr

/-- Lexicographic strict order on character lists by code point: the
embedding of the bytewise `Ord` Rust uses for `PathBuf`/`str` (identical on
the code-point level for the paths modelled here). -/
def listLt : List Char → List Char → Bool
  | [], [] => false
  | [], _ :: _ => true
  | _ :: _, [] => false
  | a :: as, b :: bs =>
    if a.toNat < b.toNat then true
    else if b.toNat < a.toNat then false
    else listLt as bs

/-- Bytewise strict order on paths. -/
def pathLt (p q : PathT) : Bool := listLt p.data q.data

/-- Ordered-set insertion, the embedding of `BTreeSet<PathBuf>::insert`:
the set is its sorted list of elements. -/
def insertSorted (p : PathT) : List PathT → List PathT
  | [] => [p]
  | q :: rest =>
    if pathLt p q then p :: q :: rest
    else if p = q then q :: rest
    else q :: insertSorted p rest

/-- The mutable state threaded through the `diff.print` closure of
`staged_diffs` / `diff_trees_to_expanded`: the flushed patches, the patch
being accumulated, the path of the delta it belongs to, and the
`BTreeSet` of touched paths. -/
structure ReasmState where
  patches : List String
  current_patch : String
  last_file : Option PathT
  touched : List PathT
deriving DecidableEq, Repr

def initState : ReasmState := ⟨[], "", none, []⟩

/-- One iteration of the `diff.print` callback (`git_helpers.rs` lines
117-144 and 191-218): flush the previous patch when the delta path changes,
append the (decoded or placeholder) line text, record the touched path. -/
def processLine (st : ReasmState) (l : DiffLine) : ReasmState :=
  let st1 :=
    if st.last_file ≠ l.path then
      let st0 :=
        if st.current_patch ≠ "" then
          { st with patches := st.patches ++ [st.current_patch], current_patch := "" }
        else st
      { st0 with last_file := l.path }
    else st
  let st2 := { st1 with current_patch := st1.current_patch ++ lineText l.content }
  match l.path with
  | some p => { st2 with touched := insertSorted p st2.touched }
  | none => st2

/-- Run the callback over the whole diff stream and push the last accumulated
patch if any (`git_helpers.rs` lines 146-149 and 220-223), yielding the patch
list (in stream order) and the touched-path set (in sorted order). -/
def reassemble (lines : List DiffLine) : List String × List PathT :=
  let st := lines.foldl processLine initState
  let patches :=
    if st.current_patch ≠ "" then st.patches ++ [st.current_patch] else st.patches
  (patches, st.touched)

/-- Embedding of `ExpandedCommit` (`git_helpers.rs` lines 8-12). -/
structure ExpandedCommit where
  diffs : Option (List String)
  sources : Option (List PathT)
deriving DecidableEq, Repr

/-- Embedding of `ExpandedCommit::is_empty` (`git_helpers.rs` lines 27-33). -/
def ExpandedCommit.is_empty (e : ExpandedCommit) : Bool :=
  if e.sources.isSome && (e.sources.getD []).length > 0 then false else true

/-- Embedding of `diff_trees_to_expanded` (`git_helpers.rs` lines 179-237), applied to the
diff stream produced by `repo.diff_tree_to_tree`. -/
def diff_trees_to_expanded (lines : List DiffLine) : ExpandedCommit :=
  let pr := reassemble lines
  { diffs := if pr.1.isEmpty then none else some pr.1
    sources := if pr.2.isEmpty then none else some pr.2 }

/-- Rust `str::contains` (substring containment) on character lists:
`startsWith pat s` is `true` when `pat` is an initial segment of `s`. -/
def startsWith : List Char → List Char → Bool
  | [], _ => true
  | _ :: _, [] => false
  | p :: ps, c :: cs => p = c && startsWith ps cs

/-- Predicate `containsSub pat s` is `true` when `pat` occurs as a contiguous substring
of `s`: the embedding of Rust `str::contains` used by the `Cargo.lock`
filter. -/
def containsSub (pat : List Char) : List Char → Bool
  | [] => startsWith pat []
  | c :: cs => startsWith pat (c :: cs) || containsSub pat cs

/-- The staged-diff exclusion predicate (`git_helpers.rs` lines 155-156):
`path.to_str()` succeeds (paths are modelled as strings) and the string
contains `"Cargo.lock"`. -/
def pathContainsLock (p : PathT) : Bool :=
  containsSub "Cargo.lock".data p.data

/-- Embedding of `DiffProfile` (`config.rs` lines 94-99). -/
structure DiffProfile where
  report_diffs : Bool
  report_sources : Bool
deriving DecidableEq, Repr

/-- Embedding of `staged_diffs` (`git_helpers.rs` lines 90-177) after the diff stream has
been produced: the shared reassembly, then the `Cargo.lock` filter zipping the
stream-ordered patches with the sorted touched set (lines 151-162), then the
field population (lines 164-174). -/
def staged_diffs (dp : DiffProfile) (lines : List DiffLine) : ExpandedCommit :=
  let pr := reassemble lines
  let filtered :=
    (pr.1.zip pr.2).foldl
      (fun (acc : List String × List PathT) pp =>
        if pathContainsLock pp.2 then acc
        else (acc.1 ++ [pp.1], insertSorted pp.2 acc.2))
      ([], [])
  { diffs :=
      if dp.report_diffs && !filtered.1.isEmpty then some filtered.1 else none
    sources := if filtered.2.isEmpty then none else some filtered.2 }

/-- Concatenation of a list of strings, the embedding of sequential
`push_str` calls into one accumulator string. -/
def concatAll : List String → String
  | [] => ""
  | s :: rest => s ++ concatAll rest

/-- The source block of `get_xml_structure` for one path (`git_helpers.rs`
lines 61-82): `fs::read` is abstracted by the `readFile` oracle, whose error
branch renders the `[source unavailable: ...]` placeholder. -/
def formatSourceBlock (readFile : PathT → Except String String) (p : PathT) : String :=
  "<source " ++ p ++ " >\n" ++
    (match readFile p with
     | .ok s => s
     | .error err => "[source unavailable: " ++ err ++ "]") ++
    "\n</source>\n"

/-- The diff-block loop of `get_xml_structure` (`git_helpers.rs` lines
43-55): block `i` is tagged with `sources[diff_counter]`, whose out-of-bounds
panic is modelled by `none`. -/
def renderDiffBlocks (sources : List PathT) : List (Nat × String) → Option String
  | [] => some ""
  | (i, d) :: rest => do
    let p ← sources.get? i
    let tail ← renderDiffBlocks sources rest
    pure ("<diff " ++ p ++ " >\n" ++ d ++ "\n</diff>\n" ++ tail)

/-- Embedding of `ExpandedCommit::get_xml_structure` (`git_helpers.rs` lines 37-86):
`none` models a panic (`sources`/`diffs` `unwrap`, or `sources[diff_counter]`
out of bounds). The `---SPLIT---` println goes to stdout, not into the
returned string, and is not modelled. -/
def ExpandedCommit.get_xml_structure (e : ExpandedCommit)
    (readFile : PathT → Except String String) (dp : DiffProfile) : Option String := do
  let sources ← e.sources
  let part1 ←
    if dp.report_diffs then do
      let diffs ← e.diffs
      renderDiffBlocks sources diffs.enum
    else pure ""
  let part2 :=
    if dp.report_sources then concatAll (sources.map (formatSourceBlock readFile))
    else ""
  pure (part1 ++ part2)

/-- Embedding of `BranchAgainst` (`config.rs` lines 281-286). -/
inductive BranchAgainst where
  | Current : BranchAgainst
  | Main : BranchAgainst
deriving DecidableEq, Repr

/-- Errors surfaced as `git2::Error` values by the embedded operations. -/
inductive GitErr where
  | NotFound : String → GitErr
  | Generic : String → GitErr
deriving DecidableEq, Repr

/-- Outcome of a Rust computation that can also `panic!`. -/
inductive ROutcome (α : Type) where
  | ok : α → ROutcome α
  | err : GitErr → ROutcome α
  | panicked : String → ROutcome α
deriving DecidableEq, Repr

/-- The repository state visible to `expanded_from_branch`: the local
branches (name to tip commit) and the commit HEAD points to, if any. -/
structure RepoModel where
  local_branches : List (String × Oid)
  head : Option Oid
deriving DecidableEq, Repr

/-- Embedding of `repo.find_branch(name, BranchType::Local)` followed by
`peel_to_commit`: `Err` when no local branch has that name. -/
def find_branch (repo : RepoModel) (name : String) : Except GitErr Oid :=
  match repo.local_branches.lookup name with
  | some oid => .ok oid
  | none => .error (.NotFound name)

def noBaseBranchMsg : String :=
  "[ERR] Tried to compare against the main branch, but there are no branches named 'main' or 'master'."

/-- The base-commit determination of `expanded_from_branch`
(`git_helpers.rs` lines 277-296): `Current` peels HEAD (error when unborn);
`Main` tries local branch "main", then "master", and `panic!`s when neither
exists. -/
def resolveBaseCommit (repo : RepoModel) (against : BranchAgainst) :
    ROutcome (Option Oid) :=
  match against with
  | .Current =>
    match repo.head with
    | some oid => .ok (some oid)
    | none => .err (.NotFound "HEAD")
  | .Main =>
    match find_branch repo "main" with
    | .ok oid => .ok (some oid)
    | .error _ =>
      match find_branch repo "master" with
      | .ok oid => .ok (some oid)
      | .error _ => .panicked noBaseBranchMsg

/-- The staged-target branch of `git_review` (`review.rs` lines 731-773),
abstracted over its three effectful calls: `staged_diffs`, `get_oid("HEAD")`
and `expanded_from_commit`. `Except` errors are the early returns of the `?`
operator; the payload is the final `expcommit` (`none` when the resolution
was silently dropped and the trailing "[ERROR] Git integrations failed"
message would print). -/
def gitReviewResolveStaged (stagedResult : Except GitErr ExpandedCommit)
    (getOidHead : Except GitErr Oid)
    (expandedFromCommit : Oid → Except GitErr ExpandedCommit) :
    Except GitErr (Option ExpandedCommit) :=
  match stagedResult with
  | .ok e =>
    if e.is_empty then
      match getOidHead with
      | .error err => .error err
      | .ok oid =>
        match expandedFromCommit oid with
        | .ok exp => .ok (some exp)
        | .error _ => .ok none
    else
      match getOidHead with
      | .error err => .error err
      | .ok _ => .ok (some e)
  | .error _ =>
    match getOidHead with
    | .error err => .error err
    | .ok oid =>
      match expandedFromCommit oid with
      | .ok exp => .ok (some exp)
      | .error _ => .ok none

/-- Modelled from the spec: the tree-diff engine (spec section 4.2) lives in
the external git library (`repo.diff_tree_to_tree`), not under `src/`. A tree
snapshot is a finite path-to-content map; contents are kept abstract as the
list of the byte lines of the file. -/
def TreeSnapshot := List (PathT × List (List Nat))

/-- Modelled from the spec (section 4.2): an absent tree is the empty tree;
a line stream is emitted only for paths whose contents differ between the two
snapshots, lines tagged with that path. Equal entries contribute nothing. -/
def diffTreesModel (old new : Option TreeSnapshot) : List DiffLine :=
  let oldT := old.getD []
  let newT := new.getD []
  let paths := (oldT.map Prod.fst ++ newT.map Prod.fst).dedup
  paths.flatMap fun p =>
    match oldT.lookup p, newT.lookup p with
    | some a, some b =>
      if a = b then []
      else (a.map fun c => DiffLine.mk (some p) c) ++ (b.map fun c => DiffLine.mk (some p) c)
    | some a, none => a.map fun c => DiffLine.mk (some p) c
    | none, some b => b.map fun c => DiffLine.mk (some p) c
    | none, none => []

/-- Embedding of `expanded_between_commits` (`git_helpers.rs` lines 308-322) after the two
commits have been resolved to their tree snapshots: diff the trees and
reassemble. -/
def expanded_between_commits (base head : Option TreeSnapshot) : ExpandedCommit :=
  diff_trees_to_expanded (diffTreesModel base head)

/-- Follows the words of the spec (not the source), for comparison with the
emission order of the source: the touched paths in the order of the first
diff line of each path in the stream. -/
def specFirstTouchOrder (lines : List DiffLine) : List PathT :=
  lines.foldl
    (fun acc l =>
      match l.path with
      | some p => if p ∈ acc then acc else acc ++ [p]
      | none => acc)
    []

/-- Discriminator for `ROutcome.err`. -/
def ROutcome.isErr : ROutcome α → Bool
  | .err _ => true
  | _ => false

/-- Flush of `reassemble` factored out: the final patch list and touched set
of a callback state. -/
def finalizeState (st : ReasmState) : List String × List PathT :=
  (if st.current_patch ≠ "" then st.patches ++ [st.current_patch] else st.patches,
   st.touched)

/-- A contiguous per-file run of the diff stream: the delta path and the
byte contents of its lines.  Real `git2` streams deliver the lines of each
delta contiguously, which this shape makes explicit. -/
structure FileRun where
  path : PathT
  contents : List (List Nat)
deriving DecidableEq, Repr

/-- The diff lines of one run. -/
def linesFor (p : PathT) (cs : List (List Nat)) : List DiffLine :=
  cs.map fun c => ⟨some p, c⟩

def runLines (r : FileRun) : List DiffLine := linesFor r.path r.contents

/-- The whole diff stream of a run list. -/
def streamOfRuns (rs : List FileRun) : List DiffLine := (rs.map runLines).flatten

/-- The accumulated patch text of a list of line contents. -/
def textOf : List (List Nat) → String
  | [] => ""
  | c :: cs => lineText c ++ textOf cs

/-- The patch text of one run. -/
def runText (r : FileRun) : String := textOf r.contents

/-- Follows the words of the claim (not the source), for comparison: the patch of
a path is the concatenated text of the stream lines tagged with it. -/
def patchOfPath (lines : List DiffLine) (p : PathT) : String :=
  concatAll ((lines.filter fun l => l.path == some p).map fun l => lineText l.content)

/-- Concrete diff stream touching path "b" before path "a" (each with one
valid-UTF-8 line, bytes of "B" and "A"). -/
def c1lines : List DiffLine := [⟨some "b", [66]⟩, ⟨some "a", [65]⟩]

/-- Concrete run list in sorted path order. -/
def c1runs : List FileRun := [⟨"a", [[65]]⟩, ⟨"b", [[66]]⟩]

/-- Concrete repository with one local branch and no "main"/"master". -/
def c3repo : RepoModel := ⟨[("feature", 1)], some 1⟩

/-- A file reader that always fails; the serializer claims under test never
consult it. -/
def noReader : PathT → Except String String := fun _ => .error "unused"

/-- The rendered diff block for one path/patch pair, as `get_xml_structure`
assembles it. -/
def diffBlockStr (p : PathT) (d : String) : String :=
  "<diff " ++ p ++ " >\n" ++ d ++ "\n</diff>\n"

theorem strNilAppend : ∀ s : String, "" ++ s = s
  | ⟨_⟩ => rfl

theorem strAppendNil : ∀ s : String, s ++ "" = s
  | ⟨d⟩ => congrArg String.mk (List.append_nil d)

theorem strAppendAssoc : ∀ a b c : String, a ++ b ++ c = a ++ (b ++ c)
  | ⟨x⟩, ⟨y⟩, ⟨z⟩ => congrArg String.mk (List.append_assoc x y z)

theorem strDataAppend : ∀ a b : String, (a ++ b).data = a.data ++ b.data
  | ⟨_⟩, ⟨_⟩ => rfl

theorem listLt_irrefl : ∀ l : List Char, listLt l l = false
  | [] => rfl
  | a :: as => by simp [listLt, listLt_irrefl as]

theorem listLt_asymm : ∀ a b : List Char, listLt a b = true → listLt b a = false
  | [], [], h => by simp [listLt] at h
  | [], _ :: _, _ => rfl
  | _ :: _, [], h => by simp [listLt] at h
  | a :: as, b :: bs, h => by
    by_cases h1 : a.toNat < b.toNat
    · have h2 : ¬ b.toNat < a.toNat := by omega
      simp [listLt, h1, h2]
    · by_cases h2 : b.toNat < a.toNat
      · simp [listLt, h1, h2] at h
      · simp [listLt, h1, h2] at h ⊢
        exact listLt_asymm as bs h

theorem listLt_trans : ∀ a b c : List Char,
    listLt a b = true → listLt b c = true → listLt a c = true
  | [], b, [], _, h2 => by cases b <;> simp [listLt] at h2
  | [], _, _ :: _, _, _ => rfl
  | _ :: _, [], _, h1, _ => by simp [listLt] at h1
  | _ :: _, _ :: _, [], _, h2 => by simp [listLt] at h2
  | a :: as, b :: bs, c :: cs, h1, h2 => by
    by_cases hab : a.toNat < b.toNat
    · by_cases hbc : b.toNat < c.toNat
      · have : a.toNat < c.toNat := by omega
        simp [listLt, this]
      · by_cases hcb : c.toNat < b.toNat
        · simp [listLt, hbc, hcb] at h2
        · have hbceq : b.toNat = c.toNat := by omega
          have : a.toNat < c.toNat := by omega
          simp [listLt, this]
    · by_cases hba : b.toNat < a.toNat
      · simp [listLt, hab, hba] at h1
      · have habeq : a.toNat = b.toNat := by omega
        by_cases hbc : b.toNat < c.toNat
        · have : a.toNat < c.toNat := by omega
          simp [listLt, this]
        · by_cases hcb : c.toNat < b.toNat
          · simp [listLt, hbc, hcb] at h2
          · have hac1 : ¬ a.toNat < c.toNat := by omega
            have hac2 : ¬ c.toNat < a.toNat := by omega
            simp [listLt, hab, hba] at h1
            simp [listLt, hbc, hcb] at h2
            simp [listLt, hac1, hac2]
            exact listLt_trans as bs cs h1 h2

theorem pathLt_irrefl (p : PathT) : pathLt p p = false := listLt_irrefl p.data

theorem pathLt_asymm (p q : PathT) (h : pathLt p q = true) : pathLt q p = false :=
  listLt_asymm p.data q.data h

theorem pathLt_trans (p q r : PathT) (h1 : pathLt p q = true) (h2 : pathLt q r = true) :
    pathLt p r = true :=
  listLt_trans p.data q.data r.data h1 h2

theorem pathLt_ne (p q : PathT) (h : pathLt p q = true) : p ≠ q := by
  intro he
  subst he
  rw [pathLt_irrefl] at h
  cases h

theorem mem_insertSorted (a p : PathT) : ∀ t, a ∈ insertSorted p t ↔ a = p ∨ a ∈ t
  | [] => by simp [insertSorted]
  | q :: rest => by
    by_cases h1 : pathLt p q = true
    · simp [insertSorted, h1]
    · by_cases h2 : p = q
      · subst h2
        simp [insertSorted, h1]
      · simp [insertSorted, h1, h2, mem_insertSorted a p rest]
        tauto

theorem insertSorted_idem (p : PathT) : ∀ t, insertSorted p (insertSorted p t) = insertSorted p t
  | [] => by simp [insertSorted, pathLt_irrefl]
  | q :: rest => by
    by_cases h1 : pathLt p q = true
    · simp [insertSorted, h1, pathLt_irrefl]
    · by_cases h2 : p = q
      · subst h2
        simp [insertSorted, pathLt_irrefl]
      · simp [insertSorted, h1, h2, insertSorted_idem p rest]

theorem insertSorted_append_last (p : PathT) :
    ∀ t, (∀ q ∈ t, pathLt q p = true) → insertSorted p t = t ++ [p]
  | [], _ => rfl
  | q :: rest, h => by
    have hq : pathLt q p = true := h q (by simp)
    have h1 : ¬ pathLt p q = true := by simp [pathLt_asymm q p hq]
    have h2 : p ≠ q := (pathLt_ne q p hq).symm
    simp [insertSorted, h1, h2]
    exact insertSorted_append_last p rest (fun x hx => h x (by simp [hx]))

theorem foldl_insertSorted_sorted :
    ∀ (ps : List PathT) (t : List PathT),
      List.Pairwise (fun a b => pathLt a b = true) ps →
      (∀ q ∈ t, ∀ p ∈ ps, pathLt q p = true) →
      ps.foldl (fun acc p => insertSorted p acc) t = t ++ ps
  | [], t, _, _ => by simp
  | p :: ps, t, hp, ht => by
    have h1 : insertSorted p t = t ++ [p] :=
      insertSorted_append_last p t (fun q hq => ht q hq p (by simp))
    have hp2 := (List.pairwise_cons.mp hp)
    have h2 : ∀ q ∈ t ++ [p], ∀ r ∈ ps, pathLt q r = true := by
      intro q hq r hr
      rcases List.mem_append.mp hq with hq1 | hq1
      · exact ht q hq1 r (by simp [hr])
      · have : q = p := by simpa using hq1
        subst this
        exact hp2.1 r hr
    calc (p :: ps).foldl (fun acc q => insertSorted q acc) t
        = ps.foldl (fun acc q => insertSorted q acc) (insertSorted p t) := rfl
      _ = (t ++ [p]) ++ ps := by rw [h1]; exact foldl_insertSorted_sorted ps (t ++ [p]) hp2.2 h2
      _ = t ++ (p :: ps) := by simp

theorem staged_fold_no_lock (pairs : List (String × PathT)) :
    ∀ acc : List String × List PathT,
      (∀ q ∈ acc.2, pathContainsLock q = false) →
      ∀ q ∈ (pairs.foldl
          (fun (acc : List String × List PathT) pp =>
            if pathContainsLock pp.2 then acc
            else (acc.1 ++ [pp.1], insertSorted pp.2 acc.2))
          acc).2,
        pathContainsLock q = false := by
  induction pairs with
  | nil => intro acc h q hq; exact h q hq
  | cons pp rest ih =>
    intro acc h q hq
    rw [List.foldl_cons] at hq
    by_cases hl : pathContainsLock pp.2 = true
    · rw [if_pos hl] at hq
      exact ih acc h q hq
    · rw [if_neg hl] at hq
      refine ih _ ?_ q hq
      intro r hr
      rcases (mem_insertSorted r pp.2 acc.2).mp hr with h1 | h1
      · subst h1
        exact Bool.not_eq_true _ ▸ (by simpa using hl)
      · exact h r h1

theorem staged_sources_no_lock (dp : DiffProfile) (lines : List DiffLine) (p : PathT)
    (h : pathContainsLock p = true) :
    p ∉ ((staged_diffs dp lines).sources.getD []) := by
  intro hmem
  have hfold := staged_fold_no_lock
      ((reassemble lines).1.zip (reassemble lines).2) ([], [])
      (by intro q hq; simp at hq)
  unfold staged_diffs at hmem
  dsimp only at hmem
  split at hmem
  · simp at hmem
  · rw [Option.getD_some] at hmem
    have := hfold p hmem
    rw [h] at this
    cases this

/-- C10: the bundle-emptiness test reads only the `sources` field: a bundle
is empty exactly when `sources` is absent or holds zero paths, and the
`diffs` field never changes the verdict. -/
theorem C10_is_empty_ignores_diffs (d d2 : Option (List String)) (s : Option (List PathT)) :
    ((ExpandedCommit.mk d s).is_empty = true ↔ s = none ∨ s = some []) ∧
    (ExpandedCommit.mk d s).is_empty = (ExpandedCommit.mk d2 s).is_empty := by
  constructor
  · cases s with
    | none => simp [ExpandedCommit.is_empty]
    | some l => cases l <;> simp [ExpandedCommit.is_empty]
  · rfl

theorem flatMapNilOfForall {α β : Type} (l : List α) (f : α → List β)
    (h : ∀ x, f x = []) : l.flatMap f = [] := by
  induction l with
  | nil => rfl
  | cons a l ih => simp [h, ih]

theorem diffTreesModel_self (t : TreeSnapshot) : diffTreesModel (some t) (some t) = [] := by
  unfold diffTreesModel
  dsimp only [Option.getD_some]
  apply flatMapNilOfForall
  intro p
  cases h : t.lookup p <;> simp [h]

/-- C8: diffing the tree of a commit against itself (base commit equal to head
commit) yields an empty `ReviewBundle`: no paths, no patches, and the bundle
counts as empty. -/
theorem C8_self_diff_empty (t : TreeSnapshot) :
    expanded_between_commits (some t) (some t) = ⟨none, none⟩ ∧
    (expanded_between_commits (some t) (some t)).is_empty = true := by
  have h : expanded_between_commits (some t) (some t) = ⟨none, none⟩ := by
    unfold expanded_between_commits
    rw [diffTreesModel_self]
    decide
  exact ⟨h, by rw [h]; rfl⟩

/-- C9: the staged-diff exclusion filter drops every path whose string
contains "Cargo.lock" as a substring — lock files in subdirectories and
names like "Cargo.lock.bak" included — never only the top-level lock file. -/
theorem C9_lock_substring (dp : DiffProfile) (lines : List DiffLine) (p : PathT)
    (h : pathContainsLock p = true) :
    p ∉ ((staged_diffs dp lines).sources.getD []) :=
  staged_sources_no_lock dp lines p h

/-- C9 witness: a subdirectory lock file and a "Cargo.lock.bak" both match
the substring predicate and are dropped from the staged bundle. -/
theorem C9_witness :
    pathContainsLock "sub/Cargo.lock" = true ∧
    "sub/Cargo.lock" ∉
      ((staged_diffs ⟨true, true⟩ [⟨some "sub/Cargo.lock", [66]⟩]).sources.getD []) ∧
    pathContainsLock "Cargo.lock.bak" = true ∧
    "Cargo.lock.bak" ∉
      ((staged_diffs ⟨true, true⟩ [⟨some "Cargo.lock.bak", [65]⟩]).sources.getD []) :=
  ⟨by decide, C9_lock_substring ⟨true, true⟩ _ _ (by decide),
   by decide, C9_lock_substring ⟨true, true⟩ _ _ (by decide)⟩

/-- C6: the lock-file exclusion is scoped to the staged strategy: the shared
tree-diff reassembly (used by Commit, Branch and PullRequest resolution)
keeps a touched lock-file path in the bundle, while `staged_diffs` drops
it. -/
theorem C6_lock_filter_scope (lines : List DiffLine) (p : PathT) (dp : DiffProfile)
    (h1 : p ∈ (reassemble lines).2) (h2 : pathContainsLock p = true) :
    (∃ ss, (diff_trees_to_expanded lines).sources = some ss ∧ p ∈ ss) ∧
    p ∉ ((staged_diffs dp lines).sources.getD []) := by
  refine ⟨⟨(reassemble lines).2, ?_, h1⟩, staged_sources_no_lock dp lines p h2⟩
  unfold diff_trees_to_expanded
  dsimp only
  rw [if_neg]
  intro he
  rw [List.isEmpty_iff] at he
  rw [he] at h1
  cases h1

/-- C6 witness: a stream touching only "Cargo.lock" keeps it under tree-diff
reassembly and loses it under the staged filter. -/
theorem C6_witness :
    (∃ ss, (diff_trees_to_expanded [⟨some "Cargo.lock", [66]⟩]).sources = some ss ∧
      "Cargo.lock" ∈ ss) ∧
    "Cargo.lock" ∉
      ((staged_diffs ⟨true, true⟩ [⟨some "Cargo.lock", [66]⟩]).sources.getD []) :=
  C6_lock_filter_scope [⟨some "Cargo.lock", [66]⟩] "Cargo.lock" ⟨true, true⟩
    (by decide) (by decide)

/-- C3 counterexample: on a repository whose only local branch is "feature",
`against=Main` resolution does not return an error value at all — it panics
(the `panic!` at `git_helpers.rs` line 291), so no `NoBaseBranch` error is
reported to the caller as a returned value. -/
theorem C3_counterexample :
    resolveBaseCommit c3repo BranchAgainst.Main = ROutcome.panicked noBaseBranchMsg ∧
    (resolveBaseCommit c3repo BranchAgainst.Main).isErr = false := by
  constructor <;> decide

/-- C3 amended: when neither a local "main" nor a local "master" exists,
`against=Main` base resolution deterministically panics with the
no-base-branch diagnostic message (a process abort), rather than returning a
`NoBaseBranch` error value to the caller. -/
theorem C3_no_base_branch_panics (repo : RepoModel)
    (hmain : repo.local_branches.lookup "main" = none)
    (hmaster : repo.local_branches.lookup "master" = none) :
    resolveBaseCommit repo BranchAgainst.Main = ROutcome.panicked noBaseBranchMsg := by
  simp [resolveBaseCommit, find_branch, hmain, hmaster]

/-- C3 witness: the amended statement evaluated on the concrete repository
with only a "feature" branch. -/
theorem C3_witness :
    resolveBaseCommit ⟨[("feature", 1)], some 1⟩ BranchAgainst.Main =
      ROutcome.panicked noBaseBranchMsg :=
  C3_no_base_branch_panics ⟨[("feature", 1)], some 1⟩ (by decide) (by decide)

/-- C5: when the staged bundle is empty, the resolver falls back to the
Commit("HEAD") strategy (the result is whatever `expanded_from_commit` on
HEAD yields), and when HEAD cannot be resolved — a repository with no
commits — the `NotFound` error is returned to the caller, never a silent
empty result. -/
theorem C5_staged_fallback (e : ExpandedCommit)
    (efc : Oid → Except GitErr ExpandedCommit) (he : e.is_empty = true) :
    (∀ oid : Oid,
      gitReviewResolveStaged (.ok e) (.ok oid) efc =
        match efc oid with
        | .ok x => .ok (some x)
        | .error _ => .ok none) ∧
    gitReviewResolveStaged (.ok e) (.error (GitErr.NotFound "HEAD")) efc =
      .error (GitErr.NotFound "HEAD") := by
  constructor
  · intro oid
    simp [gitReviewResolveStaged, he]
  · simp [gitReviewResolveStaged, he]

/-- C5 witness: the empty bundle with an unresolvable HEAD produces the
`NotFound` error. -/
theorem C5_witness :
    gitReviewResolveStaged (.ok ⟨none, none⟩) (.error (GitErr.NotFound "HEAD"))
      (fun _ => .error (GitErr.NotFound "HEAD")) =
      .error (GitErr.NotFound "HEAD") :=
  (C5_staged_fallback ⟨none, none⟩ (fun _ => .error (GitErr.NotFound "HEAD"))
    (by decide)).2

/-- C7: a diff line whose bytes are not valid UTF-8 is reassembled totally
(no panic is modelled because none exists in the source): the deterministic
placeholder naming the byte count is appended to the (possibly freshly
flushed) patch buffer, and the placeholder is never the empty string, so the
line is never silently dropped. -/
theorem C7_non_utf8_placeholder (st : ReasmState) (l : DiffLine)
    (h : utf8DecodeAux l.content = none) :
    (processLine st l).current_patch =
      (if st.last_file = l.path then st.current_patch else "") ++
        ("<non-utf8 " ++ toString l.content.length ++ " bytes>") ∧
    ("<non-utf8 " ++ toString l.content.length ++ " bytes>") ≠ "" := by
  constructor
  · have htext : lineText l.content =
        "<non-utf8 " ++ toString l.content.length ++ " bytes>" := by
      unfold lineText
      rw [h]
    unfold processLine
    by_cases hp : st.last_file = l.path
    · rw [if_pos hp, if_neg (by simpa using hp)]
      cases l.path <;> simp [htext]
    · rw [if_neg hp, if_pos (by simpa using hp)]
      by_cases hc : st.current_patch = ""
      · cases l.path <;> simp [hc, htext, strNilAppend]
      · cases l.path <;> simp [hc, htext, strNilAppend]
  · intro heq
    have hdata := congrArg String.data heq
    rw [strDataAppend, strDataAppend] at hdata
    have h3 : (" bytes>" : String).data = [] := (List.append_eq_nil.mp hdata).2
    cases h3

/-- C7 witness: the single byte 0xFF is invalid UTF-8 and reassembles to the
placeholder naming one byte. -/
theorem C7_witness :
    (processLine initState ⟨some "a", [255]⟩).current_patch = "<non-utf8 1 bytes>" := by
  have h := C7_non_utf8_placeholder initState ⟨some "a", [255]⟩ (by decide)
  rw [h.1]
  decide

/-- C1 counterexample: the stream `c1lines` touches "b" before "a"; the
reassembled bundle has patches in stream order `["B", "A"]` but paths in
sorted order `["a", "b"]`, so position 0 pairs path "a" with patch "B" even
though the patch of "a" in the stream is "A": positional correspondence
fails. -/
theorem C1_counterexample :
    (diff_trees_to_expanded c1lines).diffs = some ["B", "A"] ∧
    (diff_trees_to_expanded c1lines).sources = some ["a", "b"] ∧
    patchOfPath c1lines "a" = "A" ∧
    patchOfPath c1lines "b" = "B" ∧
    ("B" : String) ≠ "A" := by
  refine ⟨by decide, by decide, by decide, by decide, by decide⟩

/-- C2 counterexample: for the same stream the first-touch order is
`["b", "a"]`, yet the rendered output emits the block tagged "a" first (and
pairs it with the patch text of "b"): block order follows the sorted path set,
not the first-touch order. -/
theorem C2_counterexample :
    specFirstTouchOrder c1lines = ["b", "a"] ∧
    (diff_trees_to_expanded c1lines).sources = some ["a", "b"] ∧
    ExpandedCommit.get_xml_structure (diff_trees_to_expanded c1lines) noReader
      ⟨true, false⟩ =
      some "<diff a >\nB\n</diff>\n<diff b >\nA\n</diff>\n" := by
  refine ⟨by decide, by decide, by decide⟩

/-- C4 counterexample: with both flags false on a normal bundle the render
does not fail — it returns the empty string — and with
`include_sources=true, include_patches=false` on a bundle whose sources are
absent it panics (`none`), so the claimed failure condition is wrong in both
directions. -/
theorem C4_counterexample :
    ExpandedCommit.get_xml_structure ⟨some ["B", "A"], some ["a", "b"]⟩ noReader
      ⟨false, false⟩ = some "" ∧
    ExpandedCommit.get_xml_structure ⟨none, none⟩ noReader ⟨false, true⟩ = none := by
  constructor <;> decide

theorem foldl_linesFor_same (p : PathT) :
    ∀ (cs : List (List Nat)) (st : ReasmState),
      st.last_file = some p →
      insertSorted p st.touched = st.touched →
      List.foldl processLine st (linesFor p cs) =
        { st with current_patch := st.current_patch ++ textOf cs }
  | [], st, _, _ => by
    simp [linesFor, textOf, strAppendNil]
  | c :: cs, st, hl, ht => by
    have hstep : processLine st ⟨some p, c⟩ =
        { st with current_patch := st.current_patch ++ lineText c } := by
      unfold processLine
      rw [if_neg (by simp [hl])]
      dsimp only
      rw [ht]
    have hrest := foldl_linesFor_same p cs
        { st with current_patch := st.current_patch ++ lineText c } hl ht
    calc List.foldl processLine st (linesFor p (c :: cs))
        = List.foldl processLine (processLine st ⟨some p, c⟩) (linesFor p cs) := rfl
      _ = List.foldl processLine
            { st with current_patch := st.current_patch ++ lineText c }
            (linesFor p cs) := by rw [hstep]
      _ = { st with current_patch := st.current_patch ++ lineText c ++ textOf cs } := hrest
      _ = { st with current_patch := st.current_patch ++ textOf (c :: cs) } := by
            rw [strAppendAssoc]
            rfl

theorem foldl_linesFor_fresh (p : PathT) (c : List Nat) (cs : List (List Nat))
    (st : ReasmState) (h : st.last_file ≠ some p) :
    List.foldl processLine st (linesFor p (c :: cs)) =
      ⟨st.patches ++ (if st.current_patch = "" then [] else [st.current_patch]),
       textOf (c :: cs), some p, insertSorted p st.touched⟩ := by
  have hstep : processLine st ⟨some p, c⟩ =
      ⟨st.patches ++ (if st.current_patch = "" then [] else [st.current_patch]),
       lineText c, some p, insertSorted p st.touched⟩ := by
    unfold processLine
    rw [if_pos (by simpa using h)]
    by_cases hc : st.current_patch = ""
    · rw [if_neg (by simpa using hc)]
      dsimp only
      rw [if_pos hc, hc, strNilAppend]
      simp
    · rw [if_pos hc]
      dsimp only
      rw [if_neg hc, strNilAppend]
  have hrest := foldl_linesFor_same p cs
      ⟨st.patches ++ (if st.current_patch = "" then [] else [st.current_patch]),
       lineText c, some p, insertSorted p st.touched⟩ rfl (insertSorted_idem p st.touched)
  calc List.foldl processLine st (linesFor p (c :: cs))
      = List.foldl processLine (processLine st ⟨some p, c⟩) (linesFor p cs) := rfl
    _ = _ := by rw [hstep]; exact hrest

theorem streamOfRuns_cons (r : FileRun) (rs : List FileRun) :
    streamOfRuns (r :: rs) = runLines r ++ streamOfRuns rs := by
  simp [streamOfRuns]

theorem finalize_foldl_runs :
    ∀ (rs : List FileRun) (st : ReasmState),
      (∀ r ∈ rs, runText r ≠ "") →
      List.Chain' (fun a b => a.path ≠ b.path) rs →
      (∀ r ∈ rs.head?, st.last_file ≠ some r.path) →
      finalizeState (List.foldl processLine st (streamOfRuns rs)) =
        (st.patches ++ (if st.current_patch = "" then [] else [st.current_patch]) ++
            rs.map runText,
         rs.foldl (fun t r => insertSorted r.path t) st.touched)
  | [], st, _, _, _ => by
    show finalizeState st = _
    by_cases hc : st.current_patch = ""
    · simp [finalizeState, hc]
    · simp [finalizeState, hc]
  | r :: rest, st, hne, hchain, hhead => by
    rcases hcr : r.contents with _ | ⟨c, cs⟩
    · exact absurd (show runText r = "" by rw [runText, hcr]; rfl)
        (hne r (by simp))
    have hfresh : st.last_file ≠ some r.path := hhead r (by simp)
    have hchain2 := List.chain'_cons'.mp hchain
    have hst1 := foldl_linesFor_fresh r.path c cs st hfresh
    have hIH := finalize_foldl_runs rest
        ⟨st.patches ++ (if st.current_patch = "" then [] else [st.current_patch]),
         textOf (c :: cs), some r.path, insertSorted r.path st.touched⟩
        (fun x hx => hne x (by simp [hx]))
        hchain2.2
        (by
          intro r2 hr2
          have := hchain2.1 r2 hr2
          simp only [ne_eq, Option.some.injEq]
          exact this)
    rw [streamOfRuns_cons, List.foldl_append]
    rw [show runLines r = linesFor r.path (c :: cs) by rw [runLines, hcr]]
    rw [hst1, hIH]
    have htext : textOf (c :: cs) = runText r := by rw [runText, hcr]
    have htne : ¬ textOf (c :: cs) = "" := by rw [htext]; exact hne r (by simp)
    rw [if_neg htne]
    dsimp only
    rw [htext]
    simp

theorem reassemble_runs (rs : List FileRun)
    (hne : ∀ r ∈ rs, runText r ≠ "")
    (hsort : List.Chain' (fun a b => pathLt a.path b.path = true) rs) :
    reassemble (streamOfRuns rs) = (rs.map runText, rs.map FileRun.path) := by
  have hchain : List.Chain' (fun a b : FileRun => a.path ≠ b.path) rs := by
    refine List.Chain'.imp ?_ hsort
    intro a b h
    exact pathLt_ne a.path b.path h
  have h := finalize_foldl_runs rs initState hne hchain
      (by intro r _; simp [initState])
  have hre : reassemble (streamOfRuns rs) =
      finalizeState (List.foldl processLine initState (streamOfRuns rs)) := rfl
  rw [hre, h]
  have htouch : rs.foldl (fun t r => insertSorted r.path t) ([] : List PathT) =
      rs.map FileRun.path := by
    have hm := List.foldl_map FileRun.path
        (fun (t : List PathT) (p : PathT) => insertSorted p t) rs ([] : List PathT)
    rw [← hm]
    haveI : IsTrans PathT (fun a b => pathLt a b = true) :=
      ⟨fun a b c => pathLt_trans a b c⟩
    have hpw : List.Pairwise (fun a b => pathLt a b = true) (rs.map FileRun.path) :=
      List.chain'_iff_pairwise.mp ((List.chain'_map FileRun.path).mpr hsort)
    have := foldl_insertSorted_sorted (rs.map FileRun.path) [] hpw
        (by intro q hq; cases hq)
    simpa using this
  rw [show initState.patches = [] from rfl, show initState.current_patch = "" from rfl,
    show initState.touched = ([] : List PathT) from rfl]
  rw [htouch]
  simp

theorem renderDiffBlocks_complete :
    ∀ (ds : List String) (pre rest : List PathT), ds.length = rest.length →
      renderDiffBlocks (pre ++ rest) (List.enumFrom pre.length ds) =
        some (concatAll (List.zipWith diffBlockStr rest ds))
  | [], _, [], _ => by simp [renderDiffBlocks, concatAll]
  | [], _, _ :: _, hlen => by simp at hlen
  | _ :: _, _, [], hlen => by simp at hlen
  | d :: ds, pre, p :: rest, hlen => by
    have hget : (pre ++ p :: rest).get? pre.length = some p := by
      rw [List.get?_eq_getElem?, List.getElem?_append_right (le_refl _)]
      simp
    show renderDiffBlocks (pre ++ p :: rest)
        ((pre.length, d) :: List.enumFrom (pre.length + 1) ds) = _
    unfold renderDiffBlocks
    rw [hget]
    have hrec := renderDiffBlocks_complete ds (pre ++ [p]) rest (by simpa using hlen)
    rw [List.append_cons pre p rest]
    rw [show pre.length + 1 = (pre ++ [p]).length by simp]
    rw [hrec]
    rfl

theorem renderDiffBlocks_isSome :
    ∀ (ds : List String) (k : Nat) (ss : List PathT),
      (renderDiffBlocks ss (List.enumFrom k ds)).isSome = true ↔
        (ds = [] ∨ k + ds.length ≤ ss.length)
  | [], k, ss => by simp [renderDiffBlocks]
  | d :: ds, k, ss => by
    show (renderDiffBlocks ss ((k, d) :: List.enumFrom (k + 1) ds)).isSome = true ↔ _
    unfold renderDiffBlocks
    rcases hk : ss.get? k with _ | p
    · rw [List.get?_eq_getElem?] at hk
      have hlen : ss.length ≤ k := List.getElem?_eq_none_iff.mp hk
      simp only [Option.bind_eq_bind, Option.none_bind]
      constructor
      · intro h; cases h
      · intro h
        rcases h with h | h
        · cases h
        · simp at h
          omega
    · rw [List.get?_eq_getElem?] at hk
      have hklen : k < ss.length := by
        by_contra hcon
        rw [List.getElem?_eq_none_iff.mpr (by omega)] at hk
        cases hk
      have hIH := renderDiffBlocks_isSome ds (k + 1) ss
      simp only [Option.bind_eq_bind, Option.some_bind]
      constructor
      · intro h
        rcases hrec : renderDiffBlocks ss (List.enumFrom (k + 1) ds) with _ | tail
        · rw [hrec] at h
          cases h
        · have := hIH.mp (by rw [hrec]; rfl)
          right
          simp only [List.length_cons]
          rcases this with h2 | h2
          · subst h2
            simpa using hklen
          · omega
      · intro h
        have : ds = [] ∨ k + 1 + ds.length ≤ ss.length := by
          rcases h with h | h
          · cases h
          · simp only [List.length_cons] at h
            rcases ds with _ | ⟨d2, ds2⟩
            · left; rfl
            · right
              simp only [List.length_cons] at h ⊢
              omega
        rcases hrec : renderDiffBlocks ss (List.enumFrom (k + 1) ds) with _ | tail
        · have := hIH.mpr this
          rw [hrec] at this
          cases this
        · rfl

/-- C1 corrected (amended): when the diff stream delivers each file as one
contiguous run of nonempty total text and the runs arrive in sorted path
order — the shape real `git2` streams have when the delta order matches the
bytewise path order — the patch list and the path list are the `runText`s
and paths of the same run list, so the two lists have equal length and the
patch at position `i` is the patch of the path at position `i`.  (Outside
sorted order the correspondence fails: see the counterexample.) -/
theorem C1_parallel_when_sorted (rs : List FileRun)
    (hne : ∀ r ∈ rs, runText r ≠ "")
    (hsort : List.Chain' (fun a b => pathLt a.path b.path = true) rs)
    (h0 : rs ≠ []) :
    (diff_trees_to_expanded (streamOfRuns rs)).diffs = some (rs.map runText) ∧
    (diff_trees_to_expanded (streamOfRuns rs)).sources = some (rs.map FileRun.path) ∧
    (rs.map runText).length = (rs.map FileRun.path).length := by
  have h := reassemble_runs rs hne hsort
  unfold diff_trees_to_expanded
  rw [h]
  dsimp only
  have h1 : ¬ (rs.map runText).isEmpty = true := by
    rw [List.isEmpty_iff, List.map_eq_nil_iff]
    exact h0
  have h2 : ¬ (rs.map FileRun.path).isEmpty = true := by
    rw [List.isEmpty_iff, List.map_eq_nil_iff]
    exact h0
  rw [if_neg h1, if_neg h2]
  simp

/-- C1 witness: two runs in sorted order reassemble with positionally
matched patches and paths. -/
theorem C1_witness :
    (diff_trees_to_expanded (streamOfRuns c1runs)).diffs = some ["A", "B"] ∧
    (diff_trees_to_expanded (streamOfRuns c1runs)).sources = some ["a", "b"] := by
  have h := C1_parallel_when_sorted c1runs (by decide)
      (List.chain'_cons.mpr ⟨by decide, List.chain'_singleton _⟩) (by decide)
  refine ⟨?_, ?_⟩
  · rw [h.1]; decide
  · rw [h.2.1]; decide

/-- C2 corrected (amended): the serializer emits one diff block per file in
the sorted order of the touched-path set (which is how the bundle stores
paths), pairing the i-th sorted path with the i-th stream-ordered patch;
this equals the order in which files were first touched exactly when that
first-touch order is already sorted, as here.  (For an unsorted stream the
block order differs from first-touch order: see the counterexample.) -/
theorem C2_blocks_in_sorted_order (rs : List FileRun)
    (reader : PathT → Except String String)
    (hne : ∀ r ∈ rs, runText r ≠ "")
    (hsort : List.Chain' (fun a b => pathLt a.path b.path = true) rs)
    (h0 : rs ≠ []) :
    ExpandedCommit.get_xml_structure (diff_trees_to_expanded (streamOfRuns rs))
        reader ⟨true, false⟩ =
      some (concatAll (rs.map fun r => diffBlockStr r.path (runText r))) := by
  have h := reassemble_runs rs hne hsort
  unfold diff_trees_to_expanded
  rw [h]
  dsimp only
  have h1 : ¬ (rs.map runText).isEmpty = true := by
    rw [List.isEmpty_iff, List.map_eq_nil_iff]; exact h0
  have h2 : ¬ (rs.map FileRun.path).isEmpty = true := by
    rw [List.isEmpty_iff, List.map_eq_nil_iff]; exact h0
  rw [if_neg h1, if_neg h2]
  unfold ExpandedCommit.get_xml_structure
  simp only [Option.bind_eq_bind, Option.some_bind, if_true]
  have hrender := renderDiffBlocks_complete (rs.map runText) [] (rs.map FileRun.path)
      (by simp)
  simp only [List.nil_append, List.length_nil] at hrender
  rw [List.enum_eq_enumFrom, hrender]
  simp only [Option.some_bind]
  rw [List.zipWith_map diffBlockStr FileRun.path runText rs rs, List.zipWith_same]
  simp only [Bool.false_eq_true, if_false, Option.pure_def]
  rw [strAppendNil]

/-- C2 witness: for the sorted two-run stream the rendered blocks follow the
(first-touch = sorted) order. -/
theorem C2_witness :
    ExpandedCommit.get_xml_structure (diff_trees_to_expanded (streamOfRuns c1runs))
        noReader ⟨true, false⟩ =
      some "<diff a >\nA\n</diff>\n<diff b >\nB\n</diff>\n" := by
  have h := C2_blocks_in_sorted_order c1runs noReader (by decide)
      (List.chain'_cons.mpr ⟨by decide, List.chain'_singleton _⟩) (by decide)
  rw [h]
  decide

/-- C4 corrected (amended): the render does not fail in the degenerate
both-false configuration (it yields `some` of the empty string when the path
list is present); it fails — a modelled panic — exactly when the path list
is absent, or when patches are requested but the patch list is absent or
longer than the path list.  In particular `include_sources=true` with
`include_patches=false` succeeds precisely when the path list is present. -/
theorem C4_render_failure_characterization (e : ExpandedCommit)
    (reader : PathT → Except String String) (dp : DiffProfile) :
    (e.get_xml_structure reader dp).isSome = true ↔
      (∃ ss, e.sources = some ss ∧
        (dp.report_diffs = true →
          ∃ ds, e.diffs = some ds ∧ ds.length ≤ ss.length)) := by
  rcases e with ⟨d, s⟩
  cases s with
  | none => simp [ExpandedCommit.get_xml_structure]
  | some ss =>
    cases hrd : dp.report_diffs with
    | false =>
      simp [ExpandedCommit.get_xml_structure, hrd]
    | true =>
      cases d with
      | none => simp [ExpandedCommit.get_xml_structure, hrd]
      | some ds =>
        have h := renderDiffBlocks_isSome ds 0 ss
        rw [show List.enumFrom 0 ds = ds.enum from (List.enum_eq_enumFrom).symm] at h
        rcases hrender : renderDiffBlocks ss ds.enum with _ | val
        · rw [hrender] at h
          simp only [Option.isSome_none, Bool.false_eq_true, false_iff] at h
          push_neg at h
          constructor
          · intro hs
            exfalso
            simp [ExpandedCommit.get_xml_structure, hrd, hrender] at hs
          · rintro ⟨ss2, hss2, himp⟩
            exfalso
            obtain ⟨ds2, hds2, hlen⟩ := himp rfl
            rw [Option.some.injEq] at hss2 hds2
            subst hss2
            subst hds2
            have := h.2
            omega
        · constructor
          · intro _
            refine ⟨ss, rfl, fun _ => ⟨ds, rfl, ?_⟩⟩
            rw [hrender] at h
            simp only [Option.isSome_some, true_iff] at h
            rcases h with h | h
            · subst h; simp
            · omega
          · intro _
            simp [ExpandedCommit.get_xml_structure, hrd, hrender]

end Rv
